import Mathlib

/-!
Verification of the AttendMark attendance planner
(`src/app/(home)/page.tsx`) via a shallow embedding.

Modelling conventions, stated once here:

* JavaScript strings are modelled as `List Char` (`JsStr`).  Template
  interpolation of a number (`${n}`) is `natToStr`, `String.split("-")` is
  `splitChar '-'`, `Number(s)` on a digit string is `jsNum`.
* Calendar dates appear in two guises, matching how the source uses them:
  - `CalDate`, a year/month/day triple, models a local JS `Date` (and the
    `YYYY-MM-DD` ISO strings derived from it) for all parsing, formatting
    and aggregation code;
  - for the structural claims about the segment builder, dates are
    abstracted to their day numbers (`Int`); JS day arithmetic on local
    dates is exactly day-number arithmetic and ISO-string comparison of
    four-digit-year dates is exactly the numeric order.
* The holiday table (package `date-holidays`) is an external collaborator;
  it is modelled as an arbitrary predicate `isHol` passed to every
  definition that consults it, as is the `localeCompare`-based collation
  `lcLe` used for sorting names.
-/

namespace AttendMark

/-- JavaScript strings are modelled as lists of characters. -/
abbrev JsStr := List Char

/-- The decimal digit character for `n < 10`. -/
def digitChar (n : Nat) : Char := Char.ofNat (48 + n)

/-- Fuel-indexed decimal rendering; `fuel` strictly exceeding `n` is enough
because the recursion divides `n` by ten each step. -/
def natToStrGo : Nat → Nat → JsStr
  | 0, _ => []
  | fuel + 1, n =>
    if n < 10 then [digitChar n]
    else natToStrGo fuel (n / 10) ++ [digitChar (n % 10)]

/-- Models JS template interpolation `${n}` of a non-negative number:
its usual base-ten rendering with no padding. -/
def natToStr (n : Nat) : JsStr := natToStrGo (n + 1) n

/-- Embeds the source's `pad`: `(n) => (n < 10 ? `0${n}` : `${n}`)`. -/
def pad (n : Nat) : JsStr := if n < 10 then '0' :: natToStr n else natToStr n

/-- Embeds JS `String.prototype.split` with a one-character separator. -/
def splitChar (sep : Char) : List Char → List (List Char)
  | [] => [[]]
  | c :: rest =>
    match splitChar sep rest with
    | [] => [[c]]
    | h :: t => if c = sep then [] :: h :: t else (c :: h) :: t

/-- Models JS `Number(s)` on the digit strings the date code feeds it
(also sending the empty string to `0`, as `Number` does). -/
def jsNum (s : JsStr) : Nat := s.foldl (fun a c => a * 10 + (c.toNat - 48)) 0

/-- A local calendar date, the `(getFullYear, getMonth + 1, getDate)` view
of a JS `Date` with no time-of-day.  Negative years never arise in the
planner and are not modelled. -/
structure CalDate where
  year : Nat
  month : Nat
  day : Nat
deriving DecidableEq, Repr

/-- Gregorian leap-year rule, as implemented by JS `Date`. -/
def isLeap (y : Nat) : Bool := y % 4 = 0 && (y % 100 ≠ 0 || y % 400 = 0)

/-- Number of days in a month, as implemented by JS `Date`. -/
def daysInMonth (y m : Nat) : Nat :=
  if m = 2 then (if isLeap y then 29 else 28)
  else if m = 4 ∨ m = 6 ∨ m = 9 ∨ m = 11 then 30
  else 31

/-- A well-formed calendar date: the triples that actually denote days. -/
def ValidDate (d : CalDate) : Prop :=
  1 ≤ d.month ∧ d.month ≤ 12 ∧ 1 ≤ d.day ∧ d.day ≤ daysInMonth d.year d.month

instance (d : CalDate) : Decidable (ValidDate d) := by
  unfold ValidDate; infer_instance

/-- Models the JS `Date(year, monthIndex, day)` constructor on in-range
month indexes (0–11) and days, including the ECMAScript quirk that a year
argument between 0 and 99 denotes `1900 + year`.  Out-of-range fields,
which the planner never produces, are not modelled. -/
def jsNewDate (y mIdx d : Nat) : CalDate :=
  ⟨if y ≤ 99 then 1900 + y else y, mIdx + 1, d⟩

/-- Embeds `toISO`: year unpadded, month and day two-digit padded,
joined by `-`. -/
def toISO (dt : CalDate) : JsStr :=
  natToStr dt.year ++ '-' :: (pad dt.month ++ '-' :: pad dt.day)

/-- Embeds `fromISO`: split on `-`, convert the first three fields with
`Number`, and build `new Date(y, m - 1, d)`. -/
def fromISO (s : JsStr) : CalDate :=
  let parts := splitChar '-' s
  let y := jsNum (parts.headD [])
  let m := jsNum ((parts.drop 1).headD [])
  let d := jsNum ((parts.drop 2).headD [])
  jsNewDate y (m - 1) d

/-! The merge-mode enumeration and the two display formats. -/

/-- Embeds `MergeMode`: keep gaps, bridge red-day gaps, or collapse all. -/
inductive MergeMode where
  | KEEP
  | RED
  | ALL
deriving DecidableEq, Repr

/-- Embeds `DateFormat`: the `MM/DD` and `YYYY.MM.DD` display styles. -/
inductive DateFormat where
  | MMDD
  | YMD
deriving DecidableEq, Repr

/-- Embeds `formatDate` on a calendar date. -/
def formatDate (dt : CalDate) (fmt : DateFormat) : JsStr :=
  match fmt with
  | .MMDD => pad dt.month ++ '/' :: pad dt.day
  | .YMD => natToStr dt.year ++ '.' :: (pad dt.month ++ '.' :: pad dt.day)

/-! The calendar-arithmetic collaborators of the segment builder, on the
`CalDate` view.  JS delegates these to `Date`; they are modelled by the
standard Gregorian algorithms that `Date` implements. -/

/-- The successor calendar day; models `addDays(iso, 1)`
(`setDate(getDate() + 1)` with month/year rollover). -/
def nextDayCal (dt : CalDate) : CalDate :=
  if dt.day < daysInMonth dt.year dt.month then ⟨dt.year, dt.month, dt.day + 1⟩
  else if dt.month < 12 then ⟨dt.year, dt.month + 1, 1⟩
  else ⟨dt.year + 1, 1, 1⟩

/-- Embeds `isNextDay` on calendar dates. -/
def isNextDayCal (a b : CalDate) : Bool := decide (nextDayCal a = b)

/-- The strict chronological order on calendar dates; for the four-digit
years in play this is exactly the ISO-string comparison `aISO < bISO`
used by the source. -/
def dateLtP (a b : CalDate) : Prop :=
  a.year < b.year ∨ (a.year = b.year ∧
    (a.month < b.month ∨ (a.month = b.month ∧ a.day < b.day)))

instance (a b : CalDate) : Decidable (dateLtP a b) := by
  unfold dateLtP; infer_instance

/-- Boolean form of `dateLtP`. -/
def dateLt (a b : CalDate) : Bool := decide (dateLtP a b)

/-- Non-strict chronological order on calendar dates (the ordering a
comparator based on `localeCompare` of ISO strings sorts by). -/
def dateLe (a b : CalDate) : Bool := decide (dateLtP a b ∨ a = b)

/-- Julian day number of a calendar date (Fliegel–Van Flandern); models
the absolute day count a JS `Date` carries internally.  Used to compute
the weekday and to bound the red-day scanning loop. -/
def jdn (dt : CalDate) : Nat :=
  let a := (14 - dt.month) / 12
  let y := dt.year + 4800 - a
  let m := dt.month + 12 * a - 3
  dt.day + (153 * m + 2) / 5 + 365 * y + y / 4 - y / 100 + y / 400 - 32045

/-- Embeds `getDay()` on a calendar date: 0 is Sunday, 6 is Saturday. -/
def getDayCal (dt : CalDate) : Nat := (jdn dt + 1) % 7

/-- One date's test from the body of `areAllWeekendOrHolidayBetween`:
Saturday, Sunday, or holiday. -/
def isSatSunHolCal (isHol : CalDate → Bool) (dt : CalDate) : Bool :=
  getDayCal dt == 6 || getDayCal dt == 0 || isHol dt

/-- The scanning loop of `areAllWeekendOrHolidayBetween` on calendar
dates.  The `while (cur < bISO)` loop is driven by a day-count fuel that
equals its exact iteration count on valid dates; the `dateLt cur b` guard
is retained verbatim. -/
def redScanCal (isHol : CalDate → Bool) (b : CalDate) : CalDate → Nat → Bool
  | _, 0 => true
  | cur, n + 1 =>
    if dateLt cur b then
      isSatSunHolCal isHol cur && redScanCal isHol b (nextDayCal cur) n
    else true

/-- Embeds `areAllWeekendOrHolidayBetween` on calendar dates. -/
def areAllWeekendOrHolidayBetweenCal (isHol : CalDate → Bool) (a b : CalDate) : Bool :=
  redScanCal isHol b (nextDayCal a) (jdn b - jdn (nextDayCal a))

/-- The `connect` decision of the segment builder, on calendar dates. -/
def connCal (isHol : CalDate → Bool) (mode : MergeMode) (prev cur : CalDate) : Bool :=
  isNextDayCal prev cur ||
    (decide (mode = MergeMode.RED) && areAllWeekendOrHolidayBetweenCal isHol prev cur)

/-! The day-number view used for the structural claims: a date is its
absolute day number, `addDays` is addition, and the sorted ISO-date lists
fed to the segment builder are exactly the strictly increasing `Int`
lists. -/

/-- Embeds `isNextDay` on day numbers: `addDays(a, 1) === b`. -/
def isNextDayI (a b : Int) : Bool := a + 1 == b

/-- Embeds `getDay()` on day numbers (day 0 is 1970-01-01, a Thursday). -/
def getDayI (d : Int) : Int := (d + 4) % 7

/-- One date's test from the body of `areAllWeekendOrHolidayBetween`:
Saturday, Sunday, or holiday, on day numbers. -/
def isSatSunHol (isHol : Int → Bool) (d : Int) : Bool :=
  getDayI d == 6 || getDayI d == 0 || isHol d

/-- The scanning loop of `areAllWeekendOrHolidayBetween` on day numbers;
the fuel is the exact iteration count of `while (cur < b)`. -/
def redScan (isHol : Int → Bool) : Int → Nat → Bool
  | _, 0 => true
  | cur, n + 1 => isSatSunHol isHol cur && redScan isHol (cur + 1) n

/-- Embeds `areAllWeekendOrHolidayBetween` on day numbers: every date
strictly between `a` and `b` is a Saturday, Sunday, or holiday. -/
def areAllWeekendOrHolidayBetween (isHol : Int → Bool) (a b : Int) : Bool :=
  redScan isHol (a + 1) (b - (a + 1)).toNat

/-- The `connect` decision of the segment builder, on day numbers. -/
def connDay (isHol : Int → Bool) (mode : MergeMode) (prev cur : Int) : Bool :=
  isNextDayI prev cur ||
    (decide (mode = MergeMode.RED) && areAllWeekendOrHolidayBetween isHol prev cur)

/-! The segment builder itself.  The `KEEP`/`RED` scan of
`buildFormattedPeriodsFromDates` is written once, generic in the date
type and in the `connect` decision, and instantiated at both date
views. -/

/-- The running-segment scan of `buildFormattedPeriodsFromDates`: extend
the open segment `(start, prev)` while `connect` holds, close it
otherwise, and emit the final open segment at the end. -/
def segLoop {α : Type} (conn : α → α → Bool) : α → α → List α → List (α × α)
  | start, prev, [] => [(start, prev)]
  | start, prev, cur :: rest =>
    if conn prev cur then segLoop conn start cur rest
    else (start, prev) :: segLoop conn cur cur rest

/-- The segment phase of `buildFormattedPeriodsFromDates`: one
`[first, last]` segment under `ALL`, otherwise the `segLoop` scan seeded
with the first date. -/
def buildSegments {α : Type} (conn : MergeMode → α → α → Bool)
    (mode : MergeMode) (dates : List α) : List (α × α) :=
  match dates with
  | [] => []
  | d0 :: rest =>
    match mode with
    | .ALL => [(d0, List.getLast (d0 :: rest) (List.cons_ne_nil d0 rest))]
    | _ => segLoop (conn mode) d0 d0 rest

/-- JS `Array.prototype.join(", ")`. -/
def joinCommaSpace : List JsStr → JsStr
  | [] => []
  | [s] => s
  | s :: t :: rest => s ++ ',' :: ' ' :: joinCommaSpace (t :: rest)

/-- The formatting phase of `buildFormattedPeriodsFromDates`: a collapsed
single token when `start = end`, otherwise `start~end`, joined by a comma
and space. -/
def formatSegments (fmt : DateFormat) (segs : List (CalDate × CalDate)) : JsStr :=
  joinCommaSpace (segs.map (fun se =>
    if se.1 = se.2 then formatDate se.1 fmt
    else formatDate se.1 fmt ++ '~' :: formatDate se.2 fmt))

/-- Embeds `buildFormattedPeriodsFromDates` end to end on calendar dates:
segment construction under the requested mode followed by formatting.
An empty date list yields the empty string, as in the source. -/
def buildFormattedPeriodsFromDates (isHol : CalDate → Bool) (dates : List CalDate)
    (mode : MergeMode) (fmt : DateFormat) : JsStr :=
  formatSegments fmt (buildSegments (connCal isHol) mode dates)


/-! The aggregation layer: events, report rows, the per-person map, and
the rowspan grouping, with the `localeCompare`-based name collation
`lcLe` passed in as the external collaborator it is. -/

/-- Embeds `uniqueSorted` (`Array.from(new Set(arr))`): first-occurrence
deduplication; `seen` is the set accumulated so far. -/
def uniqueSortedGo {α : Type} [DecidableEq α] (seen : List α) : List α → List α
  | [] => []
  | a :: rest =>
    if a ∈ seen then uniqueSortedGo seen rest
    else a :: uniqueSortedGo (a :: seen) rest

/-- Embeds `uniqueSorted`. -/
def uniqueSorted {α : Type} [DecidableEq α] (l : List α) : List α :=
  uniqueSortedGo [] l

/-- Embeds `Entry`: one event, a date with its participant names. -/
structure Entry where
  date : CalDate
  names : List String
deriving DecidableEq, Repr

/-- Embeds the `Row` record emitted by `aggregateByPerson`.  The
`datesKey` (the sorted ISO dates joined by `","`) is modelled by the
sorted date list itself, to which the joined string corresponds
one-to-one. -/
structure Row where
  name : String
  periods : JsStr
  days : Nat
  datesKey : List CalDate
deriving DecidableEq, Repr

/-- One `arr.push(e.date)` step of `aggregateByPerson`'s map building:
append the date to the array stored under `nm`, inserting the key at the
end on first use, as a JS `Map` does. -/
def pushDate (nm : String) (d : CalDate) :
    List (String × List CalDate) → List (String × List CalDate)
  | [] => [(nm, [d])]
  | (k, arr) :: rest =>
    if k = nm then (k, arr ++ [d]) :: rest else (k, arr) :: pushDate nm d rest

/-- Processing of one entry by `aggregateByPerson`'s first loop: push the
entry's date under each of its names, skipping falsy (empty) names. -/
def collectStep (m : List (String × List CalDate)) (e : Entry) :
    List (String × List CalDate) :=
  e.names.foldl (fun m nm => if nm = "" then m else pushDate nm e.date m) m

/-- The name-to-dates map built by `aggregateByPerson`'s first loop, in
JS `Map` insertion order. -/
def collectMap (entries : List Entry) : List (String × List CalDate) :=
  entries.foldl collectStep []

/-- Association-list lookup, modelling `Map.prototype.get`. -/
def lookupDates : List (String × List CalDate) → String → Option (List CalDate)
  | [], _ => none
  | (k, arr) :: rest, nm => if k = nm then some arr else lookupDates rest nm

/-- Embeds `arr.sort()` on a date array: JS default sort is lexicographic
on the ISO strings, which on four-digit-year dates is the chronological
order `dateLe`. -/
def sortDates (l : List CalDate) : List CalDate := l.mergeSort dateLe

/-- Embeds `aggregateByPerson`: build the name-to-dates map, sort and
deduplicate each date set, emit one row per person (periods string, day
count, canonical key), and sort rows by the name collation. -/
def aggregateByPerson (lcLe : String → String → Bool) (isHol : CalDate → Bool)
    (entries : List Entry) (fmt : DateFormat) (mergeMode : MergeMode) : List Row :=
  let m := (collectMap entries).map (fun p => (p.1, uniqueSorted (sortDates p.2)))
  let out := (m.filter (fun p => !p.2.isEmpty)).map (fun p =>
    { name := p.1
      periods := buildFormattedPeriodsFromDates isHol p.2 mergeMode fmt
      days := p.2.length
      datesKey := p.2 })
  out.mergeSort (fun a b => lcLe a.name b.name)

/-- One `(groups[key] ??= []).push(r)` step of `groupedForRowSpan`.  The
group key `` `${datesKey}|${days}` `` is modelled by the pair, to which
the string (whose two fields cannot contain the `|` separator) corresponds
one-to-one. -/
def upsertGroup (k : List CalDate × Nat) (r : Row) :
    List ((List CalDate × Nat) × List Row) →
      List ((List CalDate × Nat) × List Row)
  | [] => [(k, [r])]
  | (k2, rs) :: rest =>
    if k2 = k then (k2, rs ++ [r]) :: rest else (k2, rs) :: upsertGroup k r rest

/-- Embeds `groupedForRowSpan`: bucket the rows by `(datesKey, days)` in
first-appearance order, then sort each bucket by the name collation. -/
def groupedForRowSpan (lcLe : String → String → Bool) (rows : List Row) :
    List ((List CalDate × Nat) × List Row) :=
  (rows.foldl (fun gs r => upsertGroup (r.datesKey, r.days) r gs) []).map
    (fun g => (g.1, g.2.mergeSort (fun a b => lcLe a.name b.name)))

/-- Embeds the values of the `rowOverride` record: a per-group merge mode
or an explicit return to the global setting. -/
inductive RowOverrideValue where
  | GLOBAL
  | specific (m : MergeMode)
deriving DecidableEq, Repr

/-- Embeds `rowOverride[datesKey]`: record lookup, `none` when unset. -/
def lookupOverride :
    List (List CalDate × RowOverrideValue) → List CalDate → Option RowOverrideValue
  | [], _ => none
  | (k, v) :: rest, key => if k = key then some v else lookupOverride rest key

/-- Embeds the table renderer's `effectiveMode`: the override when one is
set and not `GLOBAL`, the global mode otherwise. -/
def effectiveMode (ov : List (List CalDate × RowOverrideValue))
    (globalMode : MergeMode) (datesKey : List CalDate) : MergeMode :=
  match lookupOverride ov datesKey with
  | some (RowOverrideValue.specific m) => m
  | _ => globalMode

/-- Embeds what the table renderer computes for one group: the inline
string `` `${computedPeriods} (${first.days}일)` `` (with the periods
recomputed under the effective mode) paired with the day count it
interpolates, which is taken from the group's first row. -/
def groupDisplay (isHol : CalDate → Bool)
    (ov : List (List CalDate × RowOverrideValue)) (globalMode : MergeMode)
    (fmt : DateFormat) (group : List Row) : JsStr × Nat :=
  let first := group.headD { name := "", periods := [], days := 0, datesKey := [] }
  (buildFormattedPeriodsFromDates isHol first.datesKey
      (effectiveMode ov globalMode first.datesKey) fmt
    ++ ' ' :: '(' :: (natToStr first.days ++ ("일)").data),
   first.days)

/-! The event-list mutations of the component, as pure functions from the
previous `entries` state to the next. -/

/-- Replacement of `next[idx]` at the first index matched by `findIndex`:
apply `f` to the first entry satisfying `p`, keep everything else; the
identity when no entry matches (`idx === -1`). -/
def updateFirst (p : Entry → Bool) (f : Entry → Entry) : List Entry → List Entry
  | [] => []
  | e :: rest => if p e then f e :: rest else e :: updateFirst p f rest

/-- Embeds `removeName`: drop the name from the first entry of that date,
leaving the entry itself (possibly with an empty name list) in place. -/
def removeName (dateISO : CalDate) (name : String) (prev : List Entry) :
    List Entry :=
  updateFirst (fun e => decide (e.date = dateISO))
    (fun e => { e with names := e.names.filter (fun n => n != name) }) prev

/-- The comparator `(a, b) => a.date.localeCompare(b.date)` used to sort
entries: ISO-string collation, i.e. chronological order. -/
def entryLe (a b : Entry) : Bool := dateLe a.date b.date

/-- Embeds `ensureEntry`: no change when the date is present, otherwise
append an empty-names entry and re-sort by date. -/
def ensureEntry (dateISO : CalDate) (prev : List Entry) : List Entry :=
  if prev.any (fun e => decide (e.date = dateISO)) then prev
  else (prev ++ [({ date := dateISO, names := [] } : Entry)]).mergeSort entryLe

/-- Embeds `addNamesToDate` from the token list the raw input splits into
(the splitting on comma/semicolon/whitespace itself is UI-side and not
modelled): no-op on an empty token list, otherwise merge the deduplicated
tokens into the date's entry (creating it at the end if absent) and
re-sort by date. -/
def addNamesToDate (dateISO : CalDate) (tokens : List String)
    (prev : List Entry) : List Entry :=
  let names := uniqueSorted tokens
  if names.isEmpty then prev
  else
    let next :=
      if prev.any (fun e => decide (e.date = dateISO)) then
        updateFirst (fun e => decide (e.date = dateISO))
          (fun e => { e with names := uniqueSorted (e.names ++ names) }) prev
      else prev ++ [({ date := dateISO, names := uniqueSorted names } : Entry)]
    next.mergeSort entryLe

/-- Embeds the entries update of `confirmDeleteDate`: remove every entry
of that date. -/
def confirmDeleteDate (date : CalDate) (prev : List Entry) : List Entry :=
  prev.filter (fun e => decide (e.date ≠ date))

/-- The event lists reachable from the initial empty state through the
component's entry mutations (the full-reset button returns to `[]`). -/
inductive Reachable : List Entry → Prop where
  | init : Reachable []
  | ensure (d : CalDate) {s : List Entry} : Reachable s → Reachable (ensureEntry d s)
  | add (d : CalDate) (tokens : List String) {s : List Entry} :
      Reachable s → Reachable (addNamesToDate d tokens s)
  | remove (d : CalDate) (n : String) {s : List Entry} :
      Reachable s → Reachable (removeName d n s)
  | deleteDate (d : CalDate) {s : List Entry} :
      Reachable s → Reachable (confirmDeleteDate d s)
  | reset {s : List Entry} : Reachable s → Reachable []

/-! Basic facts about the decimal rendering. -/

theorem digitChar_ne_dash {n : Nat} (h : n < 10) : digitChar n ≠ '-' := by
  interval_cases n <;> decide

theorem digitChar_toNat {n : Nat} (h : n < 10) : (digitChar n).toNat = 48 + n := by
  interval_cases n <;> decide

theorem natToStrGo_ne_dash {fuel n : Nat} (hf : n < fuel) :
    ∀ c ∈ natToStrGo fuel n, c ≠ '-' := by
  induction fuel generalizing n with
  | zero => omega
  | succ fuel ih =>
    intro c hc
    by_cases h : n < 10
    · simp only [natToStrGo, if_pos h, List.mem_singleton] at hc
      exact hc ▸ digitChar_ne_dash h
    · simp only [natToStrGo, if_neg h, List.mem_append, List.mem_singleton] at hc
      rcases hc with hc | hc
      · have hdiv : n / 10 < n := Nat.div_lt_self (by omega) (by omega)
        exact ih (by omega) c hc
      · exact hc ▸ digitChar_ne_dash (Nat.mod_lt _ (by omega))

theorem natToStr_ne_dash (n : Nat) : ∀ c ∈ natToStr n, c ≠ '-' :=
  natToStrGo_ne_dash (Nat.lt_succ_self n)

theorem pad_ne_dash (n : Nat) : ∀ c ∈ pad n, c ≠ '-' := by
  intro c hc
  unfold pad at hc
  by_cases h : n < 10
  · rw [if_pos h] at hc
    rcases List.mem_cons.mp hc with hc | hc
    · subst hc; decide
    · exact natToStr_ne_dash n c hc
  · rw [if_neg h] at hc
    exact natToStr_ne_dash n c hc

theorem jsNum_append_singleton (l : JsStr) (c : Char) :
    jsNum (l ++ [c]) = 10 * jsNum l + (c.toNat - 48) := by
  unfold jsNum
  rw [List.foldl_append]
  simp [Nat.mul_comm]

theorem jsNum_natToStrGo {fuel n : Nat} (hf : n < fuel) :
    jsNum (natToStrGo fuel n) = n := by
  induction fuel generalizing n with
  | zero => omega
  | succ fuel ih =>
    by_cases h : n < 10
    · simp only [natToStrGo, if_pos h]
      unfold jsNum
      simp [digitChar_toNat h]
    · have hdiv : n / 10 < n := Nat.div_lt_self (by omega) (by omega)
      simp only [natToStrGo, if_neg h]
      rw [jsNum_append_singleton, ih (by omega),
        digitChar_toNat (Nat.mod_lt _ (show 0 < 10 by omega))]
      omega

theorem jsNum_natToStr (n : Nat) : jsNum (natToStr n) = n :=
  jsNum_natToStrGo (Nat.lt_succ_self n)

theorem jsNum_pad (n : Nat) : jsNum (pad n) = n := by
  unfold pad
  by_cases h : n < 10
  · rw [if_pos h]
    show jsNum ('0' :: natToStr n) = n
    unfold jsNum
    show List.foldl _ (0 * 10 + ('0'.toNat - 48)) (natToStr n) = n
    have : (0 * 10 + ('0'.toNat - 48)) = 0 := by decide
    rw [this]
    exact jsNum_natToStr n
  · rw [if_neg h]; exact jsNum_natToStr n

/-! Length of the decimal rendering. -/

theorem natToStrGo_length_one {fuel n : Nat} (hf : n < fuel) (h : n < 10) :
    (natToStrGo fuel n).length = 1 := by
  cases fuel with
  | zero => omega
  | succ fuel => simp [natToStrGo, if_pos h]

theorem natToStrGo_length_two {fuel n : Nat} (hf : n < fuel)
    (h1 : 10 ≤ n) (h2 : n < 100) : (natToStrGo fuel n).length = 2 := by
  cases fuel with
  | zero => omega
  | succ fuel =>
    have hdiv : n / 10 < n := Nat.div_lt_self (by omega) (by omega)
    simp only [natToStrGo, if_neg (by omega : ¬ n < 10), List.length_append,
      List.length_singleton]
    rw [natToStrGo_length_one (by omega) (by omega)]

theorem natToStrGo_length_three {fuel n : Nat} (hf : n < fuel)
    (h1 : 100 ≤ n) (h2 : n < 1000) : (natToStrGo fuel n).length = 3 := by
  cases fuel with
  | zero => omega
  | succ fuel =>
    have hdiv : n / 10 < n := Nat.div_lt_self (by omega) (by omega)
    simp only [natToStrGo, if_neg (by omega : ¬ n < 10), List.length_append,
      List.length_singleton]
    rw [natToStrGo_length_two (by omega) (by omega) (by omega)]

theorem natToStrGo_length_four {fuel n : Nat} (hf : n < fuel)
    (h1 : 1000 ≤ n) (h2 : n < 10000) : (natToStrGo fuel n).length = 4 := by
  cases fuel with
  | zero => omega
  | succ fuel =>
    have hdiv : n / 10 < n := Nat.div_lt_self (by omega) (by omega)
    simp only [natToStrGo, if_neg (by omega : ¬ n < 10), List.length_append,
      List.length_singleton]
    rw [natToStrGo_length_three (by omega) (by omega) (by omega)]

theorem pad_length {n : Nat} (h : n < 100) : (pad n).length = 2 := by
  unfold pad natToStr
  by_cases h10 : n < 10
  · rw [if_pos h10]
    simp only [List.length_cons]
    rw [natToStrGo_length_one (Nat.lt_succ_self n) h10]
  · rw [if_neg h10]
    exact natToStrGo_length_two (Nat.lt_succ_self n) (by omega) h

/-! Facts about `splitChar`. -/

theorem splitChar_ne_nil (sep : Char) (l : List Char) : splitChar sep l ≠ [] := by
  cases l with
  | nil => simp [splitChar]
  | cons c rest =>
    simp only [splitChar]
    rcases h : splitChar sep rest with _ | ⟨h', t⟩
    · simp
    · by_cases hc : c = sep <;> simp [hc]

theorem splitChar_no_sep {sep : Char} {l : List Char}
    (h : ∀ c ∈ l, c ≠ sep) : splitChar sep l = [l] := by
  induction l with
  | nil => rfl
  | cons c rest ih =>
    have hc : c ≠ sep := h c (List.mem_cons_self c rest)
    have := ih (fun x hx => h x (List.mem_cons_of_mem c hx))
    simp only [splitChar, this, if_neg hc]

theorem splitChar_append_sep {sep : Char} {l r : List Char}
    (h : ∀ c ∈ l, c ≠ sep) :
    splitChar sep (l ++ sep :: r) = l :: splitChar sep r := by
  induction l with
  | nil =>
    simp only [List.nil_append, splitChar]
    rcases hs : splitChar sep r with _ | ⟨h', t⟩
    · exact absurd hs (splitChar_ne_nil sep r)
    · simp
  | cons c rest ih =>
    have hc : c ≠ sep := h c (List.mem_cons_self c rest)
    have hrec := ih (fun x hx => h x (List.mem_cons_of_mem c hx))
    simp only [List.cons_append, splitChar, List.append_eq, hrec, if_neg hc]

theorem splitChar_toISO (dt : CalDate) :
    splitChar '-' (toISO dt) = [natToStr dt.year, pad dt.month, pad dt.day] := by
  unfold toISO
  rw [splitChar_append_sep (natToStr_ne_dash dt.year),
    splitChar_append_sep (pad_ne_dash dt.month),
    splitChar_no_sep (pad_ne_dash dt.day)]

/-- Claim C7, claimed form: for every representable calendar date,
`fromISO (toISO d) = d`.  This fails for years 0–99: the embedded
`new Date(y, m, d)` constructor maps such a year argument to `1900 + y`,
so the date year 50, month 1, day 2 round-trips to year 1950. -/
theorem fromISO_toISO_not_id :
    ¬ (∀ dt : CalDate, ValidDate dt → fromISO (toISO dt) = dt) := by
  intro h
  have := h ⟨50, 1, 2⟩ (by decide)
  have hne : fromISO (toISO ⟨50, 1, 2⟩) = ⟨1950, 1, 2⟩ := by decide
  rw [hne] at this
  exact absurd this (by decide)

/-- Claim C7, amended: parsing the ISO formatting of a valid date returns
the same date provided its year is at least 100 (years 0–99 are remapped
by the JS two-digit-year rule, see `fromISO_toISO_not_id`). -/
theorem fromISO_toISO_roundtrip (dt : CalDate) (hv : ValidDate dt)
    (hy : 100 ≤ dt.year) : fromISO (toISO dt) = dt := by
  obtain ⟨hm1, hm2, hd1, hd2⟩ := hv
  unfold fromISO
  rw [splitChar_toISO]
  simp only [List.headD, List.drop, jsNum_natToStr, jsNum_pad]
  unfold jsNewDate
  rw [if_neg (by omega)]
  cases dt with
  | mk y m d => simp at hm1 hy ⊢; omega

/-- Claim C7 witness: the round trip at a concrete valid date. -/
theorem fromISO_toISO_roundtrip_witness :
    fromISO (toISO ⟨2024, 1, 2⟩) = ⟨2024, 1, 2⟩ :=
  fromISO_toISO_roundtrip ⟨2024, 1, 2⟩ (by decide) (by decide)

/-- Claim C8, claimed form: the ISO rendering always has a four-digit
zero-padded year and two-digit month and day.  The year is in fact
rendered unpadded, so the valid date year 999, month 1, day 2 yields a
three-character year field. -/
theorem toISO_field_lengths_not_always :
    ¬ (∀ dt : CalDate, ValidDate dt →
      (splitChar '-' (toISO dt)).map List.length = [4, 2, 2]) := by
  intro h
  have := h ⟨999, 1, 2⟩ (by decide)
  exact absurd this (by decide)

/-- Claim C8, amended: for a valid date, month and day are always rendered
zero-padded to two digits, and the year field has four digits exactly on
the years 1000–9999 (the year is rendered unpadded, so smaller years
produce fewer digits, see `toISO_field_lengths_not_always`). -/
theorem toISO_field_lengths (dt : CalDate) (hv : ValidDate dt)
    (hy1 : 1000 ≤ dt.year) (hy2 : dt.year ≤ 9999) :
    (splitChar '-' (toISO dt)).map List.length = [4, 2, 2] := by
  obtain ⟨hm1, hm2, hd1, hd2⟩ := hv
  rw [splitChar_toISO]
  have hday : dt.day < 100 := by
    have : daysInMonth dt.year dt.month ≤ 31 := by
      unfold daysInMonth
      by_cases h2 : dt.month = 2
      · rw [if_pos h2]; by_cases hl : isLeap dt.year = true <;> simp [hl]
      · rw [if_neg h2]
        by_cases h30 : dt.month = 4 ∨ dt.month = 6 ∨ dt.month = 9 ∨ dt.month = 11 <;>
          simp [h30]
    omega
  simp only [List.map_cons, List.map_nil]
  unfold natToStr
  rw [natToStrGo_length_four (Nat.lt_succ_self _) hy1 (by omega),
    pad_length (by omega), pad_length hday]

/-- Claim C8 witness: the field lengths at a concrete valid date. -/
theorem toISO_field_lengths_witness :
    (splitChar '-' (toISO ⟨2024, 1, 2⟩)).map List.length = [4, 2, 2] :=
  toISO_field_lengths ⟨2024, 1, 2⟩ (by decide) (by decide) (by decide)

/-! Claim C4: characteristic property of the red-day scan. -/

theorem redScan_iff (isHol : Int → Bool) :
    ∀ (n : Nat) (cur : Int), redScan isHol cur n = true ↔
      ∀ i : Nat, i < n → isSatSunHol isHol (cur + i) = true := by
  intro n
  induction n with
  | zero => intro cur; simp [redScan]
  | succ n ih =>
    intro cur
    simp only [redScan, Bool.and_eq_true, ih (cur + 1)]
    constructor
    · rintro ⟨h0, hrest⟩ i hi
      cases i with
      | zero => simpa using h0
      | succ j =>
        have := hrest j (by omega)
        have harith : cur + 1 + (j : Int) = cur + ((j : Nat) + 1 : Nat) := by
          push_cast; ring
        rwa [harith] at this
    · intro h
      refine ⟨by simpa using h 0 (by omega), fun j hj => ?_⟩
      have := h (j + 1) (by omega)
      have harith : cur + ((j : Nat) + 1 : Nat) = cur + 1 + (j : Int) := by
        push_cast; ring
      rwa [harith] at this

/-- Claim C4: for dates `a < b`, `areAllWeekendOrHolidayBetween a b` is
true iff every date strictly between `a` and `b` is a Saturday, Sunday or
holiday; for `b = a + 1` the strictly-between range is empty and the
predicate is vacuously true. -/
theorem areAllWeekendOrHolidayBetween_iff (isHol : Int → Bool) (a b : Int)
    (hab : a < b) :
    areAllWeekendOrHolidayBetween isHol a b = true ↔
      ∀ d : Int, a < d → d < b → isSatSunHol isHol d = true := by
  unfold areAllWeekendOrHolidayBetween
  rw [redScan_iff]
  constructor
  · intro h d hd1 hd2
    have hi : ((d - (a + 1)).toNat : Int) = d - (a + 1) := by omega
    have := h (d - (a + 1)).toNat (by omega)
    rwa [show a + 1 + ((d - (a + 1)).toNat : Int) = d by omega] at this
  · intro h i hi
    exact h (a + 1 + i) (by omega) (by omega)

/-- Claim C4 witness: at `a = 0`, `b = 1` the range is empty and the scan
returns true. -/
theorem areAllWeekendOrHolidayBetween_iff_witness :
    areAllWeekendOrHolidayBetween (fun _ => false) 0 1 = true :=
  (areAllWeekendOrHolidayBetween_iff (fun _ => false) 0 1 (by omega)).mpr
    (fun d hd1 hd2 => absurd (lt_trans hd1 hd2) (by omega))

/-! Structural lemmas about the segment scan, generic in the `connect`
decision. -/

theorem segLoop_shape (conn : Int → Int → Bool) :
    ∀ (rest : List Int) (start prev : Int),
      List.Chain' (· < ·) (prev :: rest) →
      ∃ e tail, segLoop conn start prev rest = (start, e) :: tail ∧ prev ≤ e := by
  intro rest
  induction rest with
  | nil => intro start prev _; exact ⟨prev, [], rfl, le_refl prev⟩
  | cons cur rest ih =>
    intro start prev hch
    have hpc : prev < cur := (List.chain'_cons.mp hch).1
    have hch' : List.Chain' (· < ·) (cur :: rest) := (List.chain'_cons.mp hch).2
    by_cases hc : conn prev cur = true
    · obtain ⟨e, tail, heq, hle⟩ := ih start cur hch'
      exact ⟨e, tail, by simp only [segLoop, if_pos hc, heq], le_of_lt (lt_of_lt_of_le hpc hle)⟩
    · exact ⟨prev, segLoop conn cur cur rest,
        by simp only [segLoop, if_neg hc], le_refl prev⟩

theorem segLoop_main (conn : Int → Int → Bool) :
    ∀ (rest : List Int) (start prev : Int), start ≤ prev →
      List.Chain' (· < ·) (prev :: rest) →
      (∀ s ∈ segLoop conn start prev rest, s.1 ≤ s.2) ∧
      (∀ s ∈ segLoop conn start prev rest, start ≤ s.1) ∧
      List.Pairwise (fun p q => p.2 < q.1) (segLoop conn start prev rest) ∧
      (∀ d ∈ prev :: rest, ∃ s ∈ segLoop conn start prev rest, s.1 ≤ d ∧ d ≤ s.2) := by
  intro rest
  induction rest with
  | nil =>
    intro start prev hsp _
    refine ⟨?_, ?_, ?_, ?_⟩
    · intro s hs
      rw [show segLoop conn start prev [] = [(start, prev)] from rfl, List.mem_singleton] at hs
      simpa [hs] using hsp
    · intro s hs
      rw [show segLoop conn start prev [] = [(start, prev)] from rfl, List.mem_singleton] at hs
      simp [hs]
    · exact List.pairwise_singleton _ _
    · intro d hd
      rw [List.mem_singleton] at hd
      exact ⟨(start, prev), List.mem_singleton_self _, by simp [hd]; omega⟩
  | cons cur rest ih =>
    intro start prev hsp hch
    have hpc : prev < cur := (List.chain'_cons.mp hch).1
    have hch' : List.Chain' (· < ·) (cur :: rest) := (List.chain'_cons.mp hch).2
    by_cases hc : conn prev cur = true
    · obtain ⟨ih1, ih2, ih3, ih4⟩ := ih start cur (by omega) hch'
      simp only [segLoop, if_pos hc]
      refine ⟨ih1, ih2, ih3, ?_⟩
      intro d hd
      rcases List.mem_cons.mp hd with hd | hd
      · obtain ⟨e, tail, heq, hle⟩ := segLoop_shape conn rest start cur hch'
        refine ⟨(start, e), by rw [heq]; exact List.mem_cons_self _ _, ?_⟩
        subst hd
        exact ⟨hsp, by omega⟩
      · exact ih4 d hd
    · obtain ⟨ih1, ih2, ih3, ih4⟩ := ih cur cur (le_refl cur) hch'
      simp only [segLoop, if_neg hc]
      refine ⟨?_, ?_, ?_, ?_⟩
      · intro s hs
        rcases List.mem_cons.mp hs with hs | hs
        · simp [hs]; omega
        · exact ih1 s hs
      · intro s hs
        rcases List.mem_cons.mp hs with hs | hs
        · simp [hs]
        · exact le_trans (by omega) (ih2 s hs)
      · rw [List.pairwise_cons]
        exact ⟨fun t ht => lt_of_lt_of_le hpc (ih2 t ht), ih3⟩
      · intro d hd
        rcases List.mem_cons.mp hd with hd | hd
        · exact ⟨(start, prev), List.mem_cons_self _ _, by simp [hd]; omega⟩
        · obtain ⟨s, hsmem, hcov⟩ := ih4 d hd
          exact ⟨s, List.mem_cons_of_mem _ hsmem, hcov⟩

theorem chain_head_le (d0 : Int) (rest : List Int)
    (hs : List.Chain' (· < ·) (d0 :: rest)) : ∀ d ∈ d0 :: rest, d0 ≤ d := by
  intro d hd
  rw [List.chain'_iff_pairwise] at hs
  rcases List.mem_cons.mp hd with hd | hd
  · omega
  · exact le_of_lt ((List.pairwise_cons.mp hs).1 d hd)

theorem chain_le_getLast :
    ∀ (l : List Int) (h : l ≠ []), List.Chain' (· < ·) l →
      ∀ d ∈ l, d ≤ l.getLast h := by
  intro l
  induction l with
  | nil => intro h; exact absurd rfl h
  | cons a t ih =>
    intro h hs d hd
    cases t with
    | nil =>
      rw [List.mem_singleton] at hd
      simp [hd, List.getLast]
    | cons b t' =>
      have hab : a < b := (List.chain'_cons.mp hs).1
      have hch : List.Chain' (· < ·) (b :: t') := (List.chain'_cons.mp hs).2
      rw [List.getLast_cons (List.cons_ne_nil b t')]
      rcases List.mem_cons.mp hd with hd | hd
      · have hb := ih (List.cons_ne_nil b t') hch b (List.mem_cons_self _ _)
        omega
      · exact ih (List.cons_ne_nil b t') hch d hd

theorem pairwise_unique_cover {segs : List (Int × Int)}
    (hp : List.Pairwise (fun p q => p.2 < q.1) segs) {d : Int} {s t : Int × Int}
    (hsm : s ∈ segs) (htm : t ∈ segs) (h1 : s.1 ≤ d) (h2 : d ≤ s.2)
    (h3 : t.1 ≤ d) (h4 : d ≤ t.2) : t = s := by
  by_contra hne
  have hsym : Symmetric (fun p q : Int × Int => p.2 < q.1 ∨ q.2 < p.1) :=
    fun p q h => h.symm
  have hp' : List.Pairwise (fun p q : Int × Int => p.2 < q.1 ∨ q.2 < p.1) segs :=
    hp.imp (fun h => Or.inl h)
  rcases List.Pairwise.forall hsym hp' htm hsm hne with h | h <;> omega

/-- Claim C1: for every holiday table, merge mode, and sorted deduplicated
non-empty date sequence, the segments of the segment builder are closed
ranges (`start ≤ end`), pairwise disjoint and in strictly ascending order
(`end` of each precedes `start` of the next), and every input date lies in
exactly one segment. -/
theorem buildSegments_partition (isHol : Int → Bool) (mode : MergeMode)
    (dates : List Int) (hne : dates ≠ []) (hs : List.Chain' (· < ·) dates) :
    (∀ s ∈ buildSegments (connDay isHol) mode dates, s.1 ≤ s.2) ∧
    List.Pairwise (fun p q => p.2 < q.1) (buildSegments (connDay isHol) mode dates) ∧
    (∀ d ∈ dates, ∃ s ∈ buildSegments (connDay isHol) mode dates,
      (s.1 ≤ d ∧ d ≤ s.2) ∧
      ∀ t ∈ buildSegments (connDay isHol) mode dates, t.1 ≤ d → d ≤ t.2 → t = s) := by
  match dates, hne with
  | d0 :: rest, _ =>
    cases mode with
    | ALL =>
      have hcov : ∀ d ∈ d0 :: rest, d0 ≤ d ∧ d ≤ (d0 :: rest).getLast (List.cons_ne_nil d0 rest) := by
        intro d hd
        refine ⟨chain_head_le d0 rest hs d hd, chain_le_getLast _ _ hs d hd⟩
      have hseg : buildSegments (connDay isHol) .ALL (d0 :: rest) =
          [(d0, (d0 :: rest).getLast (List.cons_ne_nil d0 rest))] := rfl
      rw [hseg]
      refine ⟨?_, List.pairwise_singleton _ _, ?_⟩
      · intro s hsm
        rw [List.mem_singleton] at hsm
        subst hsm
        have := hcov d0 (List.mem_cons_self _ _)
        exact this.2
      · intro d hd
        refine ⟨_, List.mem_singleton_self _, ⟨(hcov d hd).1, (hcov d hd).2⟩, ?_⟩
        intro t htm _ _
        rwa [List.mem_singleton] at htm
    | KEEP =>
      have hseg : buildSegments (connDay isHol) .KEEP (d0 :: rest) =
          segLoop (connDay isHol .KEEP) d0 d0 rest := rfl
      obtain ⟨h1, _, h3, h4⟩ := segLoop_main (connDay isHol .KEEP) rest d0 d0 (le_refl d0) hs
      rw [hseg]
      refine ⟨h1, h3, ?_⟩
      intro d hd
      obtain ⟨s, hsm, hcov⟩ := h4 d hd
      exact ⟨s, hsm, hcov, fun t htm ht1 ht2 =>
        pairwise_unique_cover h3 hsm htm hcov.1 hcov.2 ht1 ht2⟩
    | RED =>
      have hseg : buildSegments (connDay isHol) .RED (d0 :: rest) =
          segLoop (connDay isHol .RED) d0 d0 rest := rfl
      obtain ⟨h1, _, h3, h4⟩ := segLoop_main (connDay isHol .RED) rest d0 d0 (le_refl d0) hs
      rw [hseg]
      refine ⟨h1, h3, ?_⟩
      intro d hd
      obtain ⟨s, hsm, hcov⟩ := h4 d hd
      exact ⟨s, hsm, hcov, fun t htm ht1 ht2 =>
        pairwise_unique_cover h3 hsm htm hcov.1 hcov.2 ht1 ht2⟩

/-- Claim C1 witness: the partition property at a concrete input. -/
theorem buildSegments_partition_witness :
    (∀ s ∈ buildSegments (connDay (fun _ => false)) MergeMode.KEEP [(0 : Int), 1, 5],
      s.1 ≤ s.2) ∧
    List.Pairwise (fun p q => p.2 < q.1)
      (buildSegments (connDay (fun _ => false)) MergeMode.KEEP [(0 : Int), 1, 5]) ∧
    (∀ d ∈ [(0 : Int), 1, 5],
      ∃ s ∈ buildSegments (connDay (fun _ => false)) MergeMode.KEEP [(0 : Int), 1, 5],
        (s.1 ≤ d ∧ d ≤ s.2) ∧
        ∀ t ∈ buildSegments (connDay (fun _ => false)) MergeMode.KEEP [(0 : Int), 1, 5],
          t.1 ≤ d → d ≤ t.2 → t = s) :=
  buildSegments_partition (fun _ => false) MergeMode.KEEP [0, 1, 5] (by decide)
    (by simp [List.chain'_cons])

/-! Claim C3: a pointwise-weaker `connect` decision yields a coarser
segmentation, segment by segment. -/

theorem segLoop_refine (conn conn' : Int → Int → Bool)
    (himp : ∀ x y, conn x y = true → conn' x y = true) :
    ∀ (rest : List Int) (prev start start' : Int), start' ≤ start → start ≤ prev →
      List.Chain' (· < ·) (prev :: rest) →
      ∀ s ∈ segLoop conn start prev rest, ∃ t ∈ segLoop conn' start' prev rest,
        t.1 ≤ s.1 ∧ s.2 ≤ t.2 := by
  intro rest
  induction rest with
  | nil =>
    intro prev start start' hss hsp _ s hsm
    rw [show segLoop conn start prev [] = [(start, prev)] from rfl,
      List.mem_singleton] at hsm
    exact ⟨(start', prev), List.mem_singleton_self _, by simp [hsm]; omega⟩
  | cons cur rest ih =>
    intro prev start start' hss hsp hch s hsm
    have hpc : prev < cur := (List.chain'_cons.mp hch).1
    have hch' : List.Chain' (· < ·) (cur :: rest) := (List.chain'_cons.mp hch).2
    by_cases hc : conn prev cur = true
    · have hc' : conn' prev cur = true := himp _ _ hc
      rw [show segLoop conn start prev (cur :: rest) = segLoop conn start cur rest by
        simp only [segLoop, if_pos hc]] at hsm
      rw [show segLoop conn' start' prev (cur :: rest) = segLoop conn' start' cur rest by
        simp only [segLoop, if_pos hc']]
      exact ih cur start start' hss (by omega) hch' s hsm
    · rw [show segLoop conn start prev (cur :: rest) =
          (start, prev) :: segLoop conn cur cur rest by
        simp only [segLoop, if_neg hc]] at hsm
      by_cases hc' : conn' prev cur = true
      · rw [show segLoop conn' start' prev (cur :: rest) = segLoop conn' start' cur rest by
          simp only [segLoop, if_pos hc']]
        rcases List.mem_cons.mp hsm with hsm | hsm
        · obtain ⟨e, tail, heq, hle⟩ := segLoop_shape conn' rest start' cur hch'
          refine ⟨(start', e), by rw [heq]; exact List.mem_cons_self _ _, ?_⟩
          subst hsm
          exact ⟨hss, by omega⟩
        · exact ih cur cur start' (by omega) (le_refl cur) hch' s hsm
      · rw [show segLoop conn' start' prev (cur :: rest) =
            (start', prev) :: segLoop conn' cur cur rest by
          simp only [segLoop, if_neg hc']]
        rcases List.mem_cons.mp hsm with hsm | hsm
        · exact ⟨(start', prev), List.mem_cons_self _ _, by simp [hsm]; omega⟩
        · obtain ⟨t, htm, hcont⟩ :=
            ih cur cur cur (le_refl cur) (le_refl cur) hch' s hsm
          exact ⟨t, List.mem_cons_of_mem _ htm, hcont⟩

theorem connDay_keep_imp_red (isHol : Int → Bool) (x y : Int)
    (h : connDay isHol MergeMode.KEEP x y = true) :
    connDay isHol MergeMode.RED x y = true := by
  unfold connDay at h ⊢
  simp only [Bool.or_eq_true, Bool.and_eq_true, decide_eq_true_eq] at h ⊢
  rcases h with h | ⟨h, _⟩
  · exact Or.inl h
  · exact absurd h (by decide)

/-- Claim C3: every segment the builder produces under `KEEP` is fully
contained in exactly one of the segments it produces under `RED` on the
same sorted, deduplicated, non-empty date sequence. -/
theorem keep_segment_in_unique_red_segment (isHol : Int → Bool)
    (dates : List Int) (hne : dates ≠ []) (hs : List.Chain' (· < ·) dates) :
    ∀ s ∈ buildSegments (connDay isHol) MergeMode.KEEP dates,
      ∃ t ∈ buildSegments (connDay isHol) MergeMode.RED dates,
        (t.1 ≤ s.1 ∧ s.2 ≤ t.2) ∧
        ∀ u ∈ buildSegments (connDay isHol) MergeMode.RED dates,
          u.1 ≤ s.1 → s.2 ≤ u.2 → u = t := by
  match dates, hne with
  | d0 :: rest, _ =>
    intro s hsm
    have hsegK : buildSegments (connDay isHol) .KEEP (d0 :: rest) =
        segLoop (connDay isHol .KEEP) d0 d0 rest := rfl
    have hsegR : buildSegments (connDay isHol) .RED (d0 :: rest) =
        segLoop (connDay isHol .RED) d0 d0 rest := rfl
    rw [hsegK] at hsm
    rw [hsegR]
    obtain ⟨hK1, _, _, _⟩ :=
      segLoop_main (connDay isHol .KEEP) rest d0 d0 (le_refl d0) hs
    obtain ⟨_, _, hR3, _⟩ :=
      segLoop_main (connDay isHol .RED) rest d0 d0 (le_refl d0) hs
    obtain ⟨t, htm, hcont⟩ :=
      segLoop_refine (connDay isHol .KEEP) (connDay isHol .RED)
        (connDay_keep_imp_red isHol) rest d0 d0 d0 (le_refl d0) (le_refl d0) hs s hsm
    have hse : s.1 ≤ s.2 := hK1 s hsm
    refine ⟨t, htm, hcont, ?_⟩
    intro u hum hu1 hu2
    exact pairwise_unique_cover hR3 htm hum (d := s.1) hcont.1
      (le_trans hse hcont.2) hu1 (le_trans hse hu2)

/-- Claim C3 witness: containment at a concrete input where `KEEP` splits
but `RED` merges (days 2 and 3 of the week starting at day 0 are the
modelled Saturday and Sunday). -/
theorem keep_segment_in_unique_red_segment_witness :
    ∃ t ∈ buildSegments (connDay (fun _ => false)) MergeMode.RED [(1 : Int), 4],
      ((t.1 ≤ 1 ∧ 1 ≤ t.2) ∧
        ∀ u ∈ buildSegments (connDay (fun _ => false)) MergeMode.RED [(1 : Int), 4],
          u.1 ≤ 1 → 1 ≤ u.2 → u = t) :=
  keep_segment_in_unique_red_segment (fun _ => false) [1, 4] (by decide)
    (by simp [List.chain'_cons]) ((1 : Int), (1 : Int)) (by decide)

/-- Claim C6: under `ALL` the builder yields exactly the one segment from
the first (least) to the last (greatest) date, whatever the internal gaps;
and on the concrete dates 2024-01-01, 2024-01-02, 2024-01-05 with the
`YYYY.MM.DD` format the rendered period string is
`2024.01.01~2024.01.05`. -/
theorem all_mode_single_segment (isHol : Int → Bool) (dates : List Int)
    (hne : dates ≠ []) (hs : List.Chain' (· < ·) dates) :
    (buildSegments (connDay isHol) MergeMode.ALL dates =
        [(dates.head hne, dates.getLast hne)] ∧
      ∀ d ∈ dates, dates.head hne ≤ d ∧ d ≤ dates.getLast hne) ∧
    buildFormattedPeriodsFromDates (fun _ => false)
        [⟨2024, 1, 1⟩, ⟨2024, 1, 2⟩, ⟨2024, 1, 5⟩] MergeMode.ALL DateFormat.YMD =
      ("2024.01.01~2024.01.05").data := by
  refine ⟨?_, by decide⟩
  match dates, hne with
  | d0 :: rest, _ =>
    refine ⟨rfl, ?_⟩
    intro d hd
    exact ⟨chain_head_le d0 rest hs d hd, chain_le_getLast _ _ hs d hd⟩

/-- Claim C6 witness: the single `ALL` segment at a concrete input with an
internal gap. -/
theorem all_mode_single_segment_witness :
    buildSegments (connDay (fun _ => false)) MergeMode.ALL [(0 : Int), 1, 4] =
      [((0 : Int), (4 : Int))] :=
  ((all_mode_single_segment (fun _ => false) [0, 1, 4] (by decide)
    (by simp [List.chain'_cons])).1).1


/-! Claim C2: facts about deduplication and the name-to-dates map. -/

theorem uniqueSortedGo_mem {α : Type} [DecidableEq α] :
    ∀ (l seen : List α) (x : α),
      x ∈ uniqueSortedGo seen l ↔ x ∈ l ∧ x ∉ seen := by
  intro l
  induction l with
  | nil => simp [uniqueSortedGo]
  | cons a rest ih =>
    intro seen x
    by_cases ha : a ∈ seen
    · rw [show uniqueSortedGo seen (a :: rest) = uniqueSortedGo seen rest from by
        simp [uniqueSortedGo, ha], ih]
      constructor
      · rintro ⟨hx, hns⟩
        exact ⟨List.mem_cons_of_mem a hx, hns⟩
      · rintro ⟨hx, hns⟩
        rcases List.mem_cons.mp hx with rfl | hx2
        · exact absurd ha hns
        · exact ⟨hx2, hns⟩
    · rw [show uniqueSortedGo seen (a :: rest) = a :: uniqueSortedGo (a :: seen) rest
        from by simp [uniqueSortedGo, ha]]
      constructor
      · intro hx
        rcases List.mem_cons.mp hx with rfl | hx2
        · exact ⟨List.mem_cons_self _ _, ha⟩
        · obtain ⟨h1, h2⟩ := (ih (a :: seen) x).mp hx2
          exact ⟨List.mem_cons_of_mem a h1, fun hs => h2 (List.mem_cons_of_mem a hs)⟩
      · rintro ⟨hx, hns⟩
        rcases List.mem_cons.mp hx with rfl | hx2
        · exact List.mem_cons_self _ _
        · by_cases hxa : x = a
          · exact hxa ▸ List.mem_cons_self _ _
          · refine List.mem_cons_of_mem a ((ih (a :: seen) x).mpr ⟨hx2, ?_⟩)
            intro hs
            rcases List.mem_cons.mp hs with h | h
            · exact hxa h
            · exact hns h

theorem uniqueSortedGo_nodup {α : Type} [DecidableEq α] :
    ∀ (l seen : List α), (uniqueSortedGo seen l).Nodup := by
  intro l
  induction l with
  | nil => intro seen; simp [uniqueSortedGo]
  | cons a rest ih =>
    intro seen
    by_cases ha : a ∈ seen
    · simpa [uniqueSortedGo, if_pos ha] using ih seen
    · simp only [uniqueSortedGo, if_neg ha]
      refine List.nodup_cons.mpr ⟨?_, ih _⟩
      intro hmem
      exact ((uniqueSortedGo_mem rest (a :: seen) a).mp hmem).2
        (List.mem_cons_self a seen)

theorem uniqueSorted_mem {α : Type} [DecidableEq α] (l : List α) (x : α) :
    x ∈ uniqueSorted l ↔ x ∈ l := by
  unfold uniqueSorted
  rw [uniqueSortedGo_mem]
  simp

theorem uniqueSorted_nodup {α : Type} [DecidableEq α] (l : List α) :
    (uniqueSorted l).Nodup := uniqueSortedGo_nodup l []

theorem uniqueSorted_length_eq_card {α : Type} [DecidableEq α] (l : List α) :
    (uniqueSorted l).length = l.toFinset.card := by
  rw [← List.toFinset_card_of_nodup (uniqueSorted_nodup l)]
  congr 1
  ext x
  simp [List.mem_toFinset, uniqueSorted_mem]

theorem lookupDates_pushDate_self (nm : String) (d : CalDate) :
    ∀ m, lookupDates (pushDate nm d m) nm =
      some ((lookupDates m nm).getD [] ++ [d]) := by
  intro m
  induction m with
  | nil => simp [pushDate, lookupDates]
  | cons p rest ih =>
    obtain ⟨k, arr⟩ := p
    by_cases hk : k = nm
    · subst hk
      simp [pushDate, lookupDates]
    · simp [pushDate, lookupDates, hk, ih]

theorem lookupDates_pushDate_other (nm nm2 : String) (d : CalDate)
    (hne : nm2 ≠ nm) :
    ∀ m, lookupDates (pushDate nm d m) nm2 = lookupDates m nm2 := by
  have hne2 : nm ≠ nm2 := fun h => hne h.symm
  intro m
  induction m with
  | nil => simp [pushDate, lookupDates, hne2]
  | cons p rest ih =>
    obtain ⟨k, arr⟩ := p
    by_cases hk : k = nm
    · subst hk
      simp [pushDate, lookupDates, hne2]
    · by_cases hk2 : k = nm2
      · subst hk2
        simp [pushDate, lookupDates, hk]
      · simp [pushDate, lookupDates, hk, hk2, ih]

theorem foldl_pushDate_mem (d : CalDate) :
    ∀ (names : List String) (m : List (String × List CalDate))
      (nm : String) (x : CalDate),
      x ∈ (lookupDates
          (names.foldl (fun acc nm2 => if nm2 = "" then acc else pushDate nm2 d acc) m)
          nm).getD [] ↔
        x ∈ (lookupDates m nm).getD [] ∨ (nm ≠ "" ∧ nm ∈ names ∧ x = d) := by
  intro names
  induction names with
  | nil => simp
  | cons nm0 names ih =>
    intro m nm x
    simp only [List.foldl_cons]
    by_cases h0 : nm0 = ""
    · rw [if_pos h0, ih]
      subst h0
      constructor
      · rintro (h | ⟨hne, hmem, rfl⟩)
        · exact Or.inl h
        · exact Or.inr ⟨hne, List.mem_cons_of_mem _ hmem, rfl⟩
      · rintro (h | ⟨hne, hmem, rfl⟩)
        · exact Or.inl h
        · rcases List.mem_cons.mp hmem with h2 | h2
          · exact absurd h2 hne
          · exact Or.inr ⟨hne, h2, rfl⟩
    · rw [if_neg h0, ih]
      by_cases hnm : nm = nm0
      · subst hnm
        rw [lookupDates_pushDate_self]
        simp only [Option.getD_some, List.mem_append, List.mem_singleton]
        constructor
        · rintro ((h | rfl) | ⟨hne, hmem, rfl⟩)
          · exact Or.inl h
          · exact Or.inr ⟨h0, List.mem_cons_self _ _, rfl⟩
          · exact Or.inr ⟨hne, List.mem_cons_of_mem _ hmem, rfl⟩
        · rintro (h | ⟨hne, hmem, rfl⟩)
          · exact Or.inl (Or.inl h)
          · exact Or.inl (Or.inr rfl)
      · rw [lookupDates_pushDate_other _ _ _ hnm]
        constructor
        · rintro (h | ⟨hne, hmem, rfl⟩)
          · exact Or.inl h
          · exact Or.inr ⟨hne, List.mem_cons_of_mem _ hmem, rfl⟩
        · rintro (h | ⟨hne, hmem, rfl⟩)
          · exact Or.inl h
          · rcases List.mem_cons.mp hmem with h2 | h2
            · exact absurd h2 hnm
            · exact Or.inr ⟨hne, h2, rfl⟩

theorem collectMap_fold_mem :
    ∀ (entries : List Entry) (m : List (String × List CalDate))
      (nm : String) (x : CalDate),
      x ∈ (lookupDates (entries.foldl collectStep m) nm).getD [] ↔
        x ∈ (lookupDates m nm).getD [] ∨
          (nm ≠ "" ∧ ∃ e ∈ entries, nm ∈ e.names ∧ x = e.date) := by
  intro entries
  induction entries with
  | nil => simp
  | cons e entries ih =>
    intro m nm x
    simp only [List.foldl_cons]
    rw [ih, show collectStep m e =
      e.names.foldl (fun acc nm2 => if nm2 = "" then acc else pushDate nm2 e.date acc) m
      from rfl, foldl_pushDate_mem]
    constructor
    · rintro ((h | ⟨hne, hmem, rfl⟩) | ⟨hne, e2, he2, hmem2, rfl⟩)
      · exact Or.inl h
      · exact Or.inr ⟨hne, e, List.mem_cons_self _ _, hmem, rfl⟩
      · exact Or.inr ⟨hne, e2, List.mem_cons_of_mem _ he2, hmem2, rfl⟩
    · rintro (h | ⟨hne, e2, he2, hmem2, rfl⟩)
      · exact Or.inl (Or.inl h)
      · rcases List.mem_cons.mp he2 with rfl | he2
        · exact Or.inl (Or.inr ⟨hne, hmem2, rfl⟩)
        · exact Or.inr ⟨hne, e2, he2, hmem2, rfl⟩

theorem collectMap_mem (entries : List Entry) (nm : String) (x : CalDate) :
    x ∈ (lookupDates (collectMap entries) nm).getD [] ↔
      nm ≠ "" ∧ ∃ e ∈ entries, nm ∈ e.names ∧ x = e.date := by
  unfold collectMap
  rw [collectMap_fold_mem]
  simp [lookupDates]

theorem pushDate_keys (nm : String) (d : CalDate) :
    ∀ m, (pushDate nm d m).map Prod.fst =
      if nm ∈ m.map Prod.fst then m.map Prod.fst
      else m.map Prod.fst ++ [nm] := by
  intro m
  induction m with
  | nil => simp [pushDate]
  | cons p rest ih =>
    obtain ⟨k, arr⟩ := p
    by_cases hk : k = nm
    · subst hk
      simp [pushDate]
    · have hk2 : nm ≠ k := fun h => hk h.symm
      by_cases hmem : nm ∈ rest.map Prod.fst
      · simp [pushDate, hk, ih, hmem, hk2]
      · simp [pushDate, hk, ih, hmem, hk2]

theorem pushDate_keys_nodup (nm : String) (d : CalDate)
    (m : List (String × List CalDate)) (h : (m.map Prod.fst).Nodup) :
    ((pushDate nm d m).map Prod.fst).Nodup := by
  rw [pushDate_keys]
  by_cases hmem : nm ∈ m.map Prod.fst
  · rw [if_pos hmem]
    exact h
  · rw [if_neg hmem, List.nodup_append]
    refine ⟨h, List.nodup_singleton nm, ?_⟩
    intro a ha hb
    rw [List.mem_singleton] at hb
    exact hmem (hb ▸ ha)

theorem pushDate_keys_ne (nm : String) (d : CalDate)
    (m : List (String × List CalDate)) (hnm : nm ≠ "")
    (h : ∀ k ∈ m.map Prod.fst, k ≠ "") :
    ∀ k ∈ (pushDate nm d m).map Prod.fst, k ≠ "" := by
  rw [pushDate_keys]
  by_cases hmem : nm ∈ m.map Prod.fst
  · rw [if_pos hmem]
    exact h
  · rw [if_neg hmem]
    intro k hk
    rcases List.mem_append.mp hk with hk | hk
    · exact h k hk
    · rw [List.mem_singleton] at hk
      exact hk ▸ hnm

theorem foldl_pushDate_keys (d : CalDate) :
    ∀ (names : List String) (m : List (String × List CalDate)),
      (m.map Prod.fst).Nodup → (∀ k ∈ m.map Prod.fst, k ≠ "") →
      ((names.foldl (fun acc nm2 => if nm2 = "" then acc else pushDate nm2 d acc) m).map
          Prod.fst).Nodup ∧
        ∀ k ∈ (names.foldl (fun acc nm2 => if nm2 = "" then acc else pushDate nm2 d acc)
            m).map Prod.fst, k ≠ "" := by
  intro names
  induction names with
  | nil => exact fun m h1 h2 => ⟨h1, h2⟩
  | cons nm0 names ih =>
    intro m h1 h2
    simp only [List.foldl_cons]
    by_cases h0 : nm0 = ""
    · rw [if_pos h0]
      exact ih m h1 h2
    · rw [if_neg h0]
      exact ih _ (pushDate_keys_nodup nm0 d m h1) (pushDate_keys_ne nm0 d m h0 h2)

theorem collectMap_keys (entries : List Entry) :
    ((collectMap entries).map Prod.fst).Nodup ∧
      ∀ k ∈ (collectMap entries).map Prod.fst, k ≠ "" := by
  unfold collectMap
  suffices h : ∀ (es : List Entry) (m : List (String × List CalDate)),
      (m.map Prod.fst).Nodup → (∀ k ∈ m.map Prod.fst, k ≠ "") →
      ((es.foldl collectStep m).map Prod.fst).Nodup ∧
        ∀ k ∈ (es.foldl collectStep m).map Prod.fst, k ≠ "" by
    exact h entries [] (by simp) (by simp)
  intro es
  induction es with
  | nil => exact fun m h1 h2 => ⟨h1, h2⟩
  | cons e es ih =>
    intro m h1 h2
    simp only [List.foldl_cons]
    obtain ⟨h1a, h2a⟩ := foldl_pushDate_keys e.date e.names m h1 h2
    exact ih _ h1a h2a

theorem lookupDates_of_mem :
    ∀ (m : List (String × List CalDate)), (m.map Prod.fst).Nodup →
      ∀ p ∈ m, lookupDates m p.1 = some p.2 := by
  intro m
  induction m with
  | nil => simp
  | cons q rest ih =>
    obtain ⟨k, arr⟩ := q
    intro hnd p hp
    rcases List.mem_cons.mp hp with rfl | hp
    · simp [lookupDates]
    · have hk : k ≠ p.1 := by
        intro h
        exact (List.nodup_cons.mp (by simpa using hnd)).1
          (h ▸ List.mem_map_of_mem Prod.fst hp)
      simp only [lookupDates, if_neg hk]
      exact ih (List.nodup_cons.mp (by simpa using hnd)).2 p hp

/-- Claim C2: the reported day count of every row equals the cardinality
of that participant's set of distinct selected dates, for every merge mode
(the mode, the holiday table, the format and the collation are all
quantified); and the day count a group displays is read from the group's
rows untouched by the override machinery, so no `rowOverride`, effective
mode, holiday table or format change affects it. -/
theorem dayCount_eq_card (lcLe : String → String → Bool)
    (isHol isHol2 : CalDate → Bool) (entries : List Entry)
    (fmt fmt2 : DateFormat) (mergeMode : MergeMode)
    (ov ov2 : List (List CalDate × RowOverrideValue))
    (globalMode globalMode2 : MergeMode) (group : List Row) :
    (∀ r ∈ aggregateByPerson lcLe isHol entries fmt mergeMode,
      r.days =
        ((entries.filter (fun e => decide (r.name ∈ e.names))).map
          Entry.date).toFinset.card) ∧
    (groupDisplay isHol ov globalMode fmt group).2 =
      (groupDisplay isHol2 ov2 globalMode2 fmt2 group).2 := by
  refine ⟨?_, rfl⟩
  intro r hr
  unfold aggregateByPerson at hr
  rw [List.mem_mergeSort] at hr
  obtain ⟨p, hp, rfl⟩ := List.mem_map.mp hr
  obtain ⟨hpm, _⟩ := List.mem_filter.mp hp
  obtain ⟨q, hq, rfl⟩ := List.mem_map.mp hpm
  obtain ⟨hnd, hne⟩ := collectMap_keys entries
  have hlook : lookupDates (collectMap entries) q.1 = some q.2 :=
    lookupDates_of_mem (collectMap entries) hnd q hq
  have hq1 : q.1 ≠ "" := hne q.1 (List.mem_map_of_mem Prod.fst hq)
  have hmem : ∀ x, x ∈ q.2 ↔ ∃ e ∈ entries, q.1 ∈ e.names ∧ x = e.date := by
    intro x
    have h := collectMap_mem entries q.1 x
    rw [hlook] at h
    simpa [hq1] using h
  show (uniqueSorted (sortDates q.2)).length = _
  rw [uniqueSorted_length_eq_card]
  congr 1
  ext x
  simp only [List.mem_toFinset, sortDates, List.mem_mergeSort, hmem,
    List.mem_map, List.mem_filter, decide_eq_true_eq]
  constructor
  · rintro ⟨e, he, hn, rfl⟩
    exact ⟨e, ⟨he, hn⟩, rfl⟩
  · rintro ⟨e, ⟨he, hn⟩, rfl⟩
    exact ⟨e, he, hn, rfl⟩

/-! Claim C5: facts about the rowspan grouping. -/

theorem upsertGroup_keyed (k : List CalDate × Nat) (r : Row)
    (hr : (r.datesKey, r.days) = k) :
    ∀ gs, (∀ g ∈ gs, ∀ x ∈ g.2, (x.datesKey, x.days) = g.1) →
      ∀ g ∈ upsertGroup k r gs, ∀ x ∈ g.2, (x.datesKey, x.days) = g.1 := by
  intro gs
  induction gs with
  | nil =>
    intro _ g hg x hx
    rw [show upsertGroup k r [] = [(k, [r])] from rfl, List.mem_singleton] at hg
    subst hg
    rw [List.mem_singleton] at hx
    subst hx
    exact hr
  | cons g0 rest ih =>
    obtain ⟨k2, rs⟩ := g0
    intro hinv g hg x hx
    by_cases hk : k2 = k
    · rw [show upsertGroup k r ((k2, rs) :: rest) = (k2, rs ++ [r]) :: rest from by
        simp [upsertGroup, hk]] at hg
      rcases List.mem_cons.mp hg with rfl | hg
      · rcases List.mem_append.mp hx with hx | hx
        · exact hinv (k2, rs) (List.mem_cons_self _ _) x hx
        · rw [List.mem_singleton] at hx
          subst hx
          rw [hr, hk]
      · exact hinv g (List.mem_cons_of_mem _ hg) x hx
    · rw [show upsertGroup k r ((k2, rs) :: rest) = (k2, rs) :: upsertGroup k r rest
        from by simp [upsertGroup, hk]] at hg
      rcases List.mem_cons.mp hg with rfl | hg
      · exact hinv (k2, rs) (List.mem_cons_self _ _) x hx
      · exact ih (fun g2 hg2 => hinv g2 (List.mem_cons_of_mem _ hg2)) g hg x hx

theorem upsertGroup_keys (k : List CalDate × Nat) (r : Row) :
    ∀ gs, (upsertGroup k r gs).map Prod.fst =
      if k ∈ gs.map Prod.fst then gs.map Prod.fst else gs.map Prod.fst ++ [k] := by
  intro gs
  induction gs with
  | nil => simp [upsertGroup]
  | cons g0 rest ih =>
    obtain ⟨k2, rs⟩ := g0
    by_cases hk : k2 = k
    · subst hk
      simp [upsertGroup]
    · have hk2 : k ≠ k2 := fun h => hk h.symm
      by_cases hmem : k ∈ rest.map Prod.fst
      · simp [upsertGroup, hk, ih, hmem, hk2]
      · simp [upsertGroup, hk, ih, hmem, hk2]

theorem upsertGroup_keys_nodup (k : List CalDate × Nat) (r : Row)
    (gs : List ((List CalDate × Nat) × List Row))
    (h : (gs.map Prod.fst).Nodup) : ((upsertGroup k r gs).map Prod.fst).Nodup := by
  rw [upsertGroup_keys]
  by_cases hmem : k ∈ gs.map Prod.fst
  · rw [if_pos hmem]
    exact h
  · rw [if_neg hmem, List.nodup_append]
    refine ⟨h, List.nodup_singleton k, ?_⟩
    intro a ha hb
    rw [List.mem_singleton] at hb
    exact hmem (hb ▸ ha)

theorem upsertGroup_mem_self (k : List CalDate × Nat) (r : Row) :
    ∀ gs, ∃ g ∈ upsertGroup k r gs, r ∈ g.2 := by
  intro gs
  induction gs with
  | nil =>
    exact ⟨(k, [r]), List.mem_singleton_self _, List.mem_singleton_self _⟩
  | cons g0 rest ih =>
    obtain ⟨k2, rs⟩ := g0
    by_cases hk : k2 = k
    · refine ⟨(k2, rs ++ [r]), ?_, by simp⟩
      rw [show upsertGroup k r ((k2, rs) :: rest) = (k2, rs ++ [r]) :: rest from by
        simp [upsertGroup, hk]]
      exact List.mem_cons_self _ _
    · obtain ⟨g, hg, hrg⟩ := ih
      refine ⟨g, ?_, hrg⟩
      rw [show upsertGroup k r ((k2, rs) :: rest) = (k2, rs) :: upsertGroup k r rest
        from by simp [upsertGroup, hk]]
      exact List.mem_cons_of_mem _ hg

theorem upsertGroup_mem_old (k : List CalDate × Nat) (r : Row) :
    ∀ gs, ∀ g ∈ gs, ∀ x ∈ g.2, ∃ g2 ∈ upsertGroup k r gs, x ∈ g2.2 := by
  intro gs
  induction gs with
  | nil => simp
  | cons g0 rest ih =>
    obtain ⟨k2, rs⟩ := g0
    intro g hg x hx
    by_cases hk : k2 = k
    · rw [show upsertGroup k r ((k2, rs) :: rest) = (k2, rs ++ [r]) :: rest from by
        simp [upsertGroup, hk]]
      rcases List.mem_cons.mp hg with rfl | hg
      · exact ⟨(k2, rs ++ [r]), List.mem_cons_self _ _,
          List.mem_append.mpr (Or.inl hx)⟩
      · exact ⟨g, List.mem_cons_of_mem _ hg, hx⟩
    · rw [show upsertGroup k r ((k2, rs) :: rest) = (k2, rs) :: upsertGroup k r rest
        from by simp [upsertGroup, hk]]
      rcases List.mem_cons.mp hg with rfl | hg
      · exact ⟨(k2, rs), List.mem_cons_self _ _, hx⟩
      · obtain ⟨g2, hg2, hx2⟩ := ih g hg x hx
        exact ⟨g2, List.mem_cons_of_mem _ hg2, hx2⟩

theorem groupFold_inv :
    ∀ (rows : List Row) (gs : List ((List CalDate × Nat) × List Row)),
      (∀ g ∈ gs, ∀ x ∈ g.2, (x.datesKey, x.days) = g.1) →
      (gs.map Prod.fst).Nodup →
      (∀ g ∈ rows.foldl (fun acc r => upsertGroup (r.datesKey, r.days) r acc) gs,
        ∀ x ∈ g.2, (x.datesKey, x.days) = g.1) ∧
      ((rows.foldl (fun acc r => upsertGroup (r.datesKey, r.days) r acc) gs).map
        Prod.fst).Nodup ∧
      (∀ g ∈ gs, ∀ x ∈ g.2,
        ∃ g2 ∈ rows.foldl (fun acc r => upsertGroup (r.datesKey, r.days) r acc) gs,
          x ∈ g2.2) ∧
      (∀ r ∈ rows,
        ∃ g ∈ rows.foldl (fun acc r => upsertGroup (r.datesKey, r.days) r acc) gs,
          r ∈ g.2) := by
  intro rows
  induction rows with
  | nil =>
    intro gs hinv hnd
    exact ⟨hinv, hnd, fun g hg x hx => ⟨g, hg, hx⟩, by simp⟩
  | cons r rows ih =>
    intro gs hinv hnd
    simp only [List.foldl_cons]
    obtain ⟨a1, a2, a3, a4⟩ := ih (upsertGroup (r.datesKey, r.days) r gs)
      (upsertGroup_keyed (r.datesKey, r.days) r rfl gs hinv)
      (upsertGroup_keys_nodup (r.datesKey, r.days) r gs hnd)
    refine ⟨a1, a2, ?_, ?_⟩
    · intro g hg x hx
      obtain ⟨g2, hg2, hx2⟩ := upsertGroup_mem_old (r.datesKey, r.days) r gs g hg x hx
      exact a3 g2 hg2 x hx2
    · intro r2 hr2
      rcases List.mem_cons.mp hr2 with rfl | hr2
      · obtain ⟨g, hg, hrg⟩ := upsertGroup_mem_self (r2.datesKey, r2.days) r2 gs
        exact a3 g hg r2 hrg
      · exact a4 r2 hr2

theorem nodup_keys_unique {gs : List ((List CalDate × Nat) × List Row)}
    (hnd : (gs.map Prod.fst).Nodup) {g g2 : (List CalDate × Nat) × List Row}
    (hg : g ∈ gs) (hg2 : g2 ∈ gs) (hk : g.1 = g2.1) : g = g2 := by
  by_contra hne
  have hp : List.Pairwise
      (fun a b : (List CalDate × Nat) × List Row => a.1 ≠ b.1) gs :=
    List.pairwise_map.mp hnd
  have hsym : Symmetric
      (fun a b : (List CalDate × Nat) × List Row => a.1 ≠ b.1) :=
    fun a b h e => h e.symm
  exact List.Pairwise.forall hsym hp hg hg2 hne hk

theorem groupedForRowSpan_spec (lcLe : String → String → Bool)
    (htr : ∀ a b c : String, lcLe a b = true → lcLe b c = true → lcLe a c = true)
    (hto : ∀ a b : String, (lcLe a b || lcLe b a) = true) (rows : List Row) :
    (∀ r1 ∈ rows, ∀ r2 ∈ rows, r1.datesKey = r2.datesKey → r1.days = r2.days →
      ∃ g ∈ groupedForRowSpan lcLe rows, r1 ∈ g.2 ∧ r2 ∈ g.2) ∧
    (∀ r1 r2 : Row, r1.datesKey ≠ r2.datesKey →
      ∀ g ∈ groupedForRowSpan lcLe rows, ¬(r1 ∈ g.2 ∧ r2 ∈ g.2)) ∧
    (∀ g ∈ groupedForRowSpan lcLe rows,
      List.Pairwise (fun a b : Row => lcLe a.name b.name = true) g.2) := by
  obtain ⟨i1, i2, _, i4⟩ := groupFold_inv rows [] (by simp) (by simp)
  refine ⟨?_, ?_, ?_⟩
  · intro r1 hr1 r2 hr2 hkey hdays
    obtain ⟨g1, hg1, hm1⟩ := i4 r1 hr1
    obtain ⟨g2, hg2, hm2⟩ := i4 r2 hr2
    have hk1 := i1 g1 hg1 r1 hm1
    have hk2 := i1 g2 hg2 r2 hm2
    have heq : g1 = g2 := by
      refine nodup_keys_unique i2 hg1 hg2 ?_
      rw [← hk1, ← hk2, hkey, hdays]
    subst heq
    refine ⟨(g1.1, g1.2.mergeSort (fun a b => lcLe a.name b.name)), ?_, ?_, ?_⟩
    · unfold groupedForRowSpan
      exact List.mem_map_of_mem _ hg1
    · exact List.mem_mergeSort.mpr hm1
    · exact List.mem_mergeSort.mpr hm2
  · intro r1 r2 hkey g hg ⟨hm1, hm2⟩
    unfold groupedForRowSpan at hg
    obtain ⟨g0, hg0, rfl⟩ := List.mem_map.mp hg
    have hm1b : r1 ∈ g0.2 := List.mem_mergeSort.mp hm1
    have hm2b : r2 ∈ g0.2 := List.mem_mergeSort.mp hm2
    have hk1 := i1 g0 hg0 r1 hm1b
    have hk2 := i1 g0 hg0 r2 hm2b
    rw [← hk2] at hk1
    exact hkey (congrArg Prod.fst hk1)
  · intro g hg
    unfold groupedForRowSpan at hg
    obtain ⟨g0, _, rfl⟩ := List.mem_map.mp hg
    exact List.sorted_mergeSort
      (fun a b c => htr a.name b.name c.name)
      (fun a b => hto a.name b.name) g0.2

/-- Claim C5: over every event set (hence independently of event insertion
order) and any transitive, total name collation, two distinct participants
whose rows carry the same canonical date key and day count always land in
one common group of `groupedForRowSpan`, two rows with different date keys
never share a group, and every group is sorted by the collation. -/
theorem grouping_by_datesKey (lcLe : String → String → Bool)
    (htr : ∀ a b c : String, lcLe a b = true → lcLe b c = true → lcLe a c = true)
    (hto : ∀ a b : String, (lcLe a b || lcLe b a) = true)
    (isHol : CalDate → Bool) (entries : List Entry) (fmt : DateFormat)
    (mode : MergeMode) :
    (∀ r1 ∈ aggregateByPerson lcLe isHol entries fmt mode,
      ∀ r2 ∈ aggregateByPerson lcLe isHol entries fmt mode,
      r1.name ≠ r2.name → r1.datesKey = r2.datesKey → r1.days = r2.days →
      ∃ g ∈ groupedForRowSpan lcLe (aggregateByPerson lcLe isHol entries fmt mode),
        r1 ∈ g.2 ∧ r2 ∈ g.2) ∧
    (∀ r1 ∈ aggregateByPerson lcLe isHol entries fmt mode,
      ∀ r2 ∈ aggregateByPerson lcLe isHol entries fmt mode,
      r1.datesKey ≠ r2.datesKey →
      ∀ g ∈ groupedForRowSpan lcLe (aggregateByPerson lcLe isHol entries fmt mode),
        ¬(r1 ∈ g.2 ∧ r2 ∈ g.2)) ∧
    (∀ g ∈ groupedForRowSpan lcLe (aggregateByPerson lcLe isHol entries fmt mode),
      List.Pairwise (fun a b : Row => lcLe a.name b.name = true) g.2) := by
  obtain ⟨s1, s2, s3⟩ :=
    groupedForRowSpan_spec lcLe htr hto (aggregateByPerson lcLe isHol entries fmt mode)
  exact ⟨fun r1 hr1 r2 hr2 _ => s1 r1 hr1 r2 hr2,
    fun r1 _ r2 _ hkey => s2 r1 r2 hkey, s3⟩

/-- Claim C5 witness: the grouping property applied with the standard
string order as collation at a concrete event set. -/
theorem grouping_by_datesKey_witness :
    (∀ r1 ∈ aggregateByPerson (fun a b : String => decide (a ≤ b)) (fun _ => false)
        [{ date := ⟨2024, 1, 1⟩, names := ["Kim", "Lee"] }] DateFormat.YMD
        MergeMode.KEEP,
      ∀ r2 ∈ aggregateByPerson (fun a b : String => decide (a ≤ b)) (fun _ => false)
        [{ date := ⟨2024, 1, 1⟩, names := ["Kim", "Lee"] }] DateFormat.YMD
        MergeMode.KEEP,
      r1.name ≠ r2.name → r1.datesKey = r2.datesKey → r1.days = r2.days →
      ∃ g ∈ groupedForRowSpan (fun a b : String => decide (a ≤ b))
        (aggregateByPerson (fun a b : String => decide (a ≤ b)) (fun _ => false)
          [{ date := ⟨2024, 1, 1⟩, names := ["Kim", "Lee"] }] DateFormat.YMD
          MergeMode.KEEP),
        r1 ∈ g.2 ∧ r2 ∈ g.2) ∧
    (∀ r1 ∈ aggregateByPerson (fun a b : String => decide (a ≤ b)) (fun _ => false)
        [{ date := ⟨2024, 1, 1⟩, names := ["Kim", "Lee"] }] DateFormat.YMD
        MergeMode.KEEP,
      ∀ r2 ∈ aggregateByPerson (fun a b : String => decide (a ≤ b)) (fun _ => false)
        [{ date := ⟨2024, 1, 1⟩, names := ["Kim", "Lee"] }] DateFormat.YMD
        MergeMode.KEEP,
      r1.datesKey ≠ r2.datesKey →
      ∀ g ∈ groupedForRowSpan (fun a b : String => decide (a ≤ b))
        (aggregateByPerson (fun a b : String => decide (a ≤ b)) (fun _ => false)
          [{ date := ⟨2024, 1, 1⟩, names := ["Kim", "Lee"] }] DateFormat.YMD
          MergeMode.KEEP),
        ¬(r1 ∈ g.2 ∧ r2 ∈ g.2)) ∧
    (∀ g ∈ groupedForRowSpan (fun a b : String => decide (a ≤ b))
        (aggregateByPerson (fun a b : String => decide (a ≤ b)) (fun _ => false)
          [{ date := ⟨2024, 1, 1⟩, names := ["Kim", "Lee"] }] DateFormat.YMD
          MergeMode.KEEP),
      List.Pairwise (fun a b : Row => decide (a.name ≤ b.name) = true) g.2) :=
  grouping_by_datesKey (fun a b : String => decide (a ≤ b))
    (fun a b c h1 h2 => by
      simp only [decide_eq_true_eq] at h1 h2 ⊢
      exact le_trans h1 h2)
    (fun a b => by
      rcases le_total a b with h | h <;> simp [h])
    (fun _ => false) [{ date := ⟨2024, 1, 1⟩, names := ["Kim", "Lee"] }]
    DateFormat.YMD MergeMode.KEEP

/-! Claims C9 and C10: the entry-list mutations. -/

theorem map_eq_self_of_fix {α : Type} (l : List α) (f : α → α)
    (h : ∀ x ∈ l, f x = x) : l.map f = l := by
  induction l with
  | nil => rfl
  | cons a rest ih =>
    rw [List.map_cons, h a (List.mem_cons_self _ _),
      ih (fun x hx => h x (List.mem_cons_of_mem a hx))]

theorem removeName_noop (d : CalDate) (n : String) :
    ∀ l : List Entry, (∀ e ∈ l, e.date = d → n ∉ e.names) →
      removeName d n l = l := by
  intro l
  induction l with
  | nil => intro _; rfl
  | cons e rest ih =>
    intro h
    unfold removeName updateFirst
    by_cases he : e.date = d
    · rw [if_pos (by simp [he])]
      have hn : n ∉ e.names := h e (List.mem_cons_self _ _) he
      have hfix : e.names.filter (fun x => x != n) = e.names := by
        rw [List.filter_eq_self]
        intro x hx
        simp only [bne_iff_ne, ne_eq, decide_eq_true_eq]
        intro hxn
        exact hn (hxn ▸ hx)
      show ({ date := e.date, names := e.names.filter (fun x => x != n) } : Entry)
          :: rest = e :: rest
      rw [hfix]
    · rw [if_neg (by simp [he])]
      have := ih (fun x hx hxd => h x (List.mem_cons_of_mem e hx) hxd)
      unfold removeName at this
      rw [this]

/-- Claim C9: on an entry list with pairwise-distinct dates (the shape the
component maintains, see the C10 invariant), `removeName` is exactly the
pointwise update that filters the given name out of the entry of the given
date and touches nothing else; in particular the entry survives with an
empty name list when its last name is removed, the list length never
changes, and removing a name that is not present anywhere under that date
is a complete no-op. -/
theorem removeName_frame (d : CalDate) (n : String) (l : List Entry)
    (hud : List.Pairwise (fun a b : Entry => a.date ≠ b.date) l) :
    removeName d n l =
      l.map (fun e => if e.date = d
        then { e with names := e.names.filter (fun x => x != n) } else e) ∧
    ((∀ e ∈ l, e.date = d → n ∉ e.names) → removeName d n l = l) ∧
    (removeName d n l).length = l.length := by
  have hmain : removeName d n l =
      l.map (fun e => if e.date = d
        then { e with names := e.names.filter (fun x => x != n) } else e) := by
    induction l with
    | nil => rfl
    | cons e rest ih =>
      obtain ⟨hhead, hrest⟩ := List.pairwise_cons.mp hud
      unfold removeName updateFirst
      by_cases he : e.date = d
      · rw [if_pos (by simp [he])]
        rw [List.map_cons, if_pos he]
        congr 1
        rw [map_eq_self_of_fix]
        intro x hx
        rw [if_neg (fun hxd => hhead x hx (he.trans hxd.symm))]
      · rw [if_neg (by simp [he])]
        rw [List.map_cons, if_neg he]
        have := ih hrest
        unfold removeName at this
        rw [this]
  refine ⟨hmain, removeName_noop d n l, ?_⟩
  rw [hmain, List.length_map]

/-- Claim C9 witness: the frame property at a concrete two-entry list, the
first entry losing its only name. -/
theorem removeName_frame_witness :
    removeName ⟨2024, 1, 1⟩ "Kim"
        [{ date := ⟨2024, 1, 1⟩, names := ["Kim"] },
          { date := ⟨2024, 1, 2⟩, names := ["Lee"] }] =
      [{ date := ⟨2024, 1, 1⟩, names := [] },
        { date := ⟨2024, 1, 2⟩, names := ["Lee"] }] := by
  have h := (removeName_frame ⟨2024, 1, 1⟩ "Kim"
    [{ date := ⟨2024, 1, 1⟩, names := ["Kim"] },
      { date := ⟨2024, 1, 2⟩, names := ["Lee"] }] (by decide)).1
  rw [h]
  decide

/-! Claim C10: order facts for the entry comparator, and preservation of
the sortedness invariant by every mutation. -/

theorem dateLtP_trans {a b c : CalDate} (h1 : dateLtP a b) (h2 : dateLtP b c) :
    dateLtP a c := by
  unfold dateLtP at h1 h2 ⊢
  omega

theorem dateLtP_ne {a b : CalDate} (h : dateLtP a b) : a ≠ b := by
  intro heq
  subst heq
  unfold dateLtP at h
  omega

theorem dateLe_trans (a b c : CalDate) (h1 : dateLe a b = true)
    (h2 : dateLe b c = true) : dateLe a c = true := by
  simp only [dateLe, decide_eq_true_eq] at h1 h2 ⊢
  rcases h1 with h1 | rfl
  · rcases h2 with h2 | rfl
    · exact Or.inl (dateLtP_trans h1 h2)
    · exact Or.inl h1
  · exact h2

theorem dateLe_total (a b : CalDate) : (dateLe a b || dateLe b a) = true := by
  simp only [dateLe, Bool.or_eq_true, decide_eq_true_eq]
  by_cases h : a = b
  · exact Or.inl (Or.inr h)
  · obtain ⟨y1, m1, d1⟩ := a
    obtain ⟨y2, m2, d2⟩ := b
    simp only [CalDate.mk.injEq, not_and] at h
    unfold dateLtP
    simp only [CalDate.mk.injEq]
    omega

theorem dateLe_ne_lt {a b : CalDate} (h : dateLe a b = true) (hne : a ≠ b) :
    dateLtP a b := by
  simp only [dateLe, decide_eq_true_eq] at h
  rcases h with h | rfl
  · exact h
  · exact absurd rfl hne

theorem entryLe_trans (a b c : Entry) (h1 : entryLe a b = true)
    (h2 : entryLe b c = true) : entryLe a c = true :=
  dateLe_trans a.date b.date c.date h1 h2

theorem entryLe_total (a b : Entry) : (entryLe a b || entryLe b a) = true :=
  dateLe_total a.date b.date

theorem inv_nodup_dates {l : List Entry}
    (h : List.Pairwise (fun a b : Entry => dateLtP a.date b.date) l) :
    (l.map Entry.date).Nodup :=
  List.pairwise_map.mpr (h.imp fun hab => dateLtP_ne hab)

theorem sortEntries_inv {l : List Entry} (hn : (l.map Entry.date).Nodup) :
    List.Pairwise (fun a b : Entry => dateLtP a.date b.date)
      (l.mergeSort entryLe) := by
  have hs := List.sorted_mergeSort entryLe_trans entryLe_total l
  have hperm := List.mergeSort_perm l entryLe
  have hn2 : ((l.mergeSort entryLe).map Entry.date).Nodup :=
    ((List.Perm.map Entry.date hperm).nodup_iff).mpr hn
  have hne : List.Pairwise (fun a b : Entry => a.date ≠ b.date)
      (l.mergeSort entryLe) := List.pairwise_map.mp hn2
  exact (hs.and hne).imp (fun h => dateLe_ne_lt h.1 h.2)

theorem any_date_eq_false {l : List Entry} {d : CalDate}
    (h : ¬l.any (fun e => decide (e.date = d)) = true) :
    d ∉ l.map Entry.date := by
  intro hmem
  obtain ⟨e, he, hde⟩ := List.mem_map.mp hmem
  exact h (List.any_eq_true.mpr ⟨e, he, by simp [hde]⟩)

theorem ensureEntry_inv (d : CalDate) {l : List Entry}
    (h : List.Pairwise (fun a b : Entry => dateLtP a.date b.date) l) :
    List.Pairwise (fun a b : Entry => dateLtP a.date b.date) (ensureEntry d l) := by
  unfold ensureEntry
  by_cases hany : l.any (fun e => decide (e.date = d)) = true
  · rw [if_pos hany]
    exact h
  · rw [if_neg hany]
    apply sortEntries_inv
    rw [List.map_append, List.nodup_append]
    refine ⟨inv_nodup_dates h, by simp, ?_⟩
    intro x hx hxs
    simp only [List.map_cons, List.map_nil, List.mem_singleton] at hxs
    exact any_date_eq_false hany (hxs ▸ hx)

theorem updateFirst_map_date (p : Entry → Bool) (f : Entry → Entry)
    (hf : ∀ e, (f e).date = e.date) :
    ∀ l : List Entry, (updateFirst p f l).map Entry.date = l.map Entry.date := by
  intro l
  induction l with
  | nil => rfl
  | cons e rest ih =>
    unfold updateFirst
    by_cases hp : p e = true
    · rw [if_pos hp, List.map_cons, List.map_cons, hf e]
    · rw [if_neg hp, List.map_cons, List.map_cons, ih]

theorem pairwise_of_map_date_eq {l l2 : List Entry}
    (heq : l2.map Entry.date = l.map Entry.date)
    (h : List.Pairwise (fun a b : Entry => dateLtP a.date b.date) l) :
    List.Pairwise (fun a b : Entry => dateLtP a.date b.date) l2 := by
  have h2 : List.Pairwise dateLtP (l.map Entry.date) := List.pairwise_map.mpr h
  rw [← heq] at h2
  exact List.pairwise_map.mp h2

theorem removeName_inv (d : CalDate) (n : String) {l : List Entry}
    (h : List.Pairwise (fun a b : Entry => dateLtP a.date b.date) l) :
    List.Pairwise (fun a b : Entry => dateLtP a.date b.date) (removeName d n l) :=
  pairwise_of_map_date_eq
    (updateFirst_map_date (fun e => decide (e.date = d))
      (fun e => { e with names := e.names.filter (fun x => x != n) })
      (fun _ => rfl) l) h

theorem addNamesToDate_inv (d : CalDate) (tokens : List String) {l : List Entry}
    (h : List.Pairwise (fun a b : Entry => dateLtP a.date b.date) l) :
    List.Pairwise (fun a b : Entry => dateLtP a.date b.date)
      (addNamesToDate d tokens l) := by
  unfold addNamesToDate
  by_cases hemp : (uniqueSorted tokens).isEmpty = true
  · simp only [hemp, if_true]
    exact h
  · simp only [hemp, if_false]
    by_cases hany : l.any (fun e => decide (e.date = d)) = true
    · rw [if_pos hany]
      apply sortEntries_inv
      rw [updateFirst_map_date (fun e => decide (e.date = d))
        (fun e => { e with names := uniqueSorted (e.names ++ uniqueSorted tokens) })
        (fun _ => rfl) l]
      exact inv_nodup_dates h
    · rw [if_neg hany]
      apply sortEntries_inv
      rw [List.map_append, List.nodup_append]
      refine ⟨inv_nodup_dates h, by simp, ?_⟩
      intro x hx hxs
      simp only [List.map_cons, List.map_nil, List.mem_singleton] at hxs
      exact any_date_eq_false hany (hxs ▸ hx)

/-- Claim C10: starting from the empty initial state, every entry list
reachable through the component's mutations (`ensureEntry`,
`addNamesToDate`, `removeName`, `confirmDeleteDate`, full reset) is
strictly sorted by ascending date: the inserting operations re-sort after
insertion and every other mutation preserves the order. -/
theorem entries_always_sorted {s : List Entry} (h : Reachable s) :
    List.Pairwise (fun a b : Entry => dateLtP a.date b.date) s := by
  induction h with
  | init => exact List.Pairwise.nil
  | ensure d _ ih => exact ensureEntry_inv d ih
  | add d tokens _ ih => exact addNamesToDate_inv d tokens ih
  | remove d n _ ih => exact removeName_inv d n ih
  | deleteDate d _ ih => exact List.Pairwise.filter _ ih
  | reset _ _ => exact List.Pairwise.nil

/-- Claim C10 witness: the invariant at a concrete reachable state built
by selecting two dates out of order and naming one of them. -/
theorem entries_always_sorted_witness :
    List.Pairwise (fun a b : Entry => dateLtP a.date b.date)
      (addNamesToDate ⟨2024, 1, 2⟩ ["Kim"]
        (ensureEntry ⟨2024, 1, 3⟩ (ensureEntry ⟨2024, 1, 1⟩ []))) :=
  entries_always_sorted
    (Reachable.add ⟨2024, 1, 2⟩ ["Kim"]
      (Reachable.ensure ⟨2024, 1, 3⟩ (Reachable.ensure ⟨2024, 1, 1⟩ Reachable.init)))

end AttendMark
